import Mathlib

/-!
Shallow embedding of the Table-Allocator repository
(`table_allocator/core.py` and the legacy variant `table_allocation.py`)
and proofs about its specification.

People are modelled as natural numbers (the source uses opaque strings with
their lexicographic order; only a decidable linear order is used by the code).
Python floats are modelled as rationals.  The `networkx.Graph` preference
graph is modelled as a symmetric partial weight function updated by
`add_edge`.  Tables (`List[Set[str]]`) are lists of finite sets.
-/

namespace TableAlloc

abbrev Person : Type := ℕ

/-- The preference graph: maps an (ordered) pair of people to the weight of
the edge between them, `none` when no edge exists.  `networkx.Graph` stores
undirected edges; symmetry is an invariant of the update function below. -/
abbrev Graph : Type := Person → Person → Option ℚ

/-- The empty `networkx.Graph()` created in `TableAllocator.__init__`. -/
def emptyGraph : Graph := fun _ _ => none

/-- Embedding of `networkx.Graph.add_edge(a, b, weight=w)`: sets the weight of
the undirected edge `{a, b}` to `w`, overwriting any previous weight (last
write wins).  `a = b` is allowed and creates a self-loop, as in networkx. -/
def addEdge (g : Graph) (a b : Person) (w : ℚ) : Graph :=
  fun x y => if (x = a ∧ y = b) ∨ (x = b ∧ y = a) then some w else g x y

/-- Embedding of `networkx.Graph.has_edge(a, b)`. -/
def hasEdge (g : Graph) (a b : Person) : Bool := (g a b).isSome

/-- Embedding of `graph[a][b]['weight']`, defaulting to `0` when the edge is
absent (the source only reads the weight under a `has_edge` guard). -/
def edgeWeight (g : Graph) (a b : Person) : ℚ := (g a b).getD 0

/-- A graph is symmetric when the stored edge data is independent of the
order of the two endpoints — the `networkx.Graph` (undirected) invariant. -/
def Graph.Symm (g : Graph) : Prop := ∀ a b, g a b = g b a

/-- State of a `TableAllocator` object: the three configuration scalars from
`__init__` (Python ints, hence `ℤ`), the preference graph and the set of
known people. -/
structure AllocatorState where
  numTables : ℤ
  tableSize : ℤ
  numPeople : ℤ
  graph : Graph
  people : Finset Person

/-- Embedding of `TableAllocator.__init__(num_tables, table_size, num_people)`
from both `core.py` and `table_allocation.py`: it stores the three scalars and
creates an empty graph and people set.  It performs no validation whatsoever
and always succeeds, for every argument values including zero and negatives. -/
def TableAllocator.init (numTables tableSize numPeople : ℤ) : AllocatorState :=
  { numTables := numTables
    tableSize := tableSize
    numPeople := numPeople
    graph := emptyGraph
    people := ∅ }

/-- Embedding of `TableAllocator.add_preference(person, preferences, weight)`:
adds `person` to the people set, then for each listed preference adds it to
the people set and sets the edge `(person, pref)` to `weight`. -/
def addPreference (st : AllocatorState) (person : Person) (prefs : List Person)
    (w : ℚ) : AllocatorState :=
  prefs.foldl
    (fun s pref =>
      { s with
        people := insert pref s.people
        graph := addEdge s.graph person pref w })
    { st with people := insert person st.people }

/-- One recorded `add_preference` call: person, preference list, weight. -/
abbrev PrefCall : Type := Person × List Person × ℚ

/-- Replays a sequence of `add_preference` calls on an allocator state. -/
def applyPrefs (st : AllocatorState) (calls : List PrefCall) : AllocatorState :=
  calls.foldl (fun s c => addPreference s c.1 c.2.1 c.2.2) st

/-- Per-table inner sums of `_calculate_satisfaction_score` in `core.py`:
for each ordered pair `(p1, p2)` of table members with `p1 < p2` and an edge
between them, add the edge weight. -/
def tablePairScore (g : Graph) (t : Finset Person) : ℚ :=
  ∑ p1 ∈ t, ∑ p2 ∈ t,
    if p1 < p2 ∧ hasEdge g p1 p2 then edgeWeight g p1 p2 else 0

/-- Embedding of `_calculate_satisfaction_score(tables)` from `core.py`:
iterates unordered pairs directly via the `person1 < person2` guard. -/
def calculateSatisfactionScore (g : Graph) (tables : List (Finset Person)) : ℚ :=
  (tables.map (tablePairScore g)).sum

/-- Per-table inner sums of `_calculate_satisfaction_score` in
`table_allocation.py`: every ordered pair `(person, other)` of distinct table
members with an edge contributes its weight (so each unordered pair is
counted twice). -/
def tableDoubledScore (g : Graph) (t : Finset Person) : ℚ :=
  ∑ p ∈ t, ∑ q ∈ t,
    if p ≠ q ∧ hasEdge g p q then edgeWeight g p q else 0

/-- Embedding of `_calculate_satisfaction_score(tables)` from
`table_allocation.py`: sums over ordered pairs of distinct co-seated people
and divides the doubled total by two. -/
def calculateSatisfactionScoreLegacy (g : Graph) (tables : List (Finset Person)) : ℚ :=
  (tables.map (tableDoubledScore g)).sum / 2

/-- Replaces table `i` of the assignment by `f` applied to it, mirroring an
in-place mutation `tables[i] = f(tables[i])` (out-of-range indices leave the
list unchanged, matching `List.set`; the source only uses in-range indices
drawn from `range(num_tables)`). -/
def updateTable (tables : List (Finset Person)) (i : ℕ)
    (f : Finset Person → Finset Person) : List (Finset Person) :=
  tables.set i (f (tables.getD i ∅))

/-- Embedding of the swap performed by `_perform_swap` and inside
`_generate_neighbor` (both variants): `tables[t1].remove(p1);
tables[t2].remove(p2); tables[t1].add(p2); tables[t2].add(p1)`, executed in
that order on a copy of the assignment. -/
def performSwap (tables : List (Finset Person)) (p1 : Person) (t1 : ℕ)
    (p2 : Person) (t2 : ℕ) : List (Finset Person) :=
  let s1 := updateTable tables t1 (fun t => t.erase p1)
  let s2 := updateTable s1 t2 (fun t => t.erase p2)
  let s3 := updateTable s2 t1 (fun t => insert p2 t)
  updateTable s3 t2 (fun t => insert p1 t)

/-- Embedding of `_try_swap(tables, person1, table1_idx, person2, table2_idx)`
from `table_allocation.py`: sums `person1`'s edge weights over ALL current
occupants of `table1` and `person2`'s over `table2` (the "current" score),
sums `person1`'s edge weights over ALL current occupants of `table2` and
`person2`'s over `table1` (the "new" score), and returns their difference. -/
def trySwap (g : Graph) (tables : List (Finset Person)) (p1 : Person) (t1 : ℕ)
    (p2 : Person) (t2 : ℕ) : ℚ :=
  let currentScore :=
    (∑ o ∈ tables.getD t1 ∅, if hasEdge g p1 o then edgeWeight g p1 o else 0)
      + ∑ o ∈ tables.getD t2 ∅, if hasEdge g p2 o then edgeWeight g p2 o else 0
  let newScore :=
    (∑ o ∈ tables.getD t2 ∅, if hasEdge g p1 o then edgeWeight g p1 o else 0)
      + ∑ o ∈ tables.getD t1 ∅, if hasEdge g p2 o then edgeWeight g p2 o else 0
  newScore - currentScore

/-- Embedding of the retry loop of `_get_random_swap_candidates` in
`table_allocation.py`.  The loop body redraws `(table1_idx, table2_idx)`
while they are equal or either table is empty; each element of `draws` is one
drawn pair from the random source, and the result is the first accepted pair,
`none` when every supplied draw is rejected (the real loop would keep
drawing forever). -/
def getRandomSwapCandidatesLegacy (tables : List (Finset Person)) :
    List (ℕ × ℕ) → Option (ℕ × ℕ)
  | [] => none
  | (i, j) :: rest =>
      if i = j ∨ tables.getD i ∅ = ∅ ∨ tables.getD j ∅ = ∅ then
        getRandomSwapCandidatesLegacy tables rest
      else some (i, j)

/-- Embedding of the second retry loop of `_get_random_swap_candidates` in
`core.py`: with the first table `t1` already chosen, redraw `table2_idx`
while its table is empty or it equals `t1`.  Each element of `draws` is one
drawn index; the result is the first accepted index, `none` when every
supplied draw is rejected (the real loop would keep drawing forever). -/
def getSecondSwapTable (tables : List (Finset Person)) (t1 : ℕ) :
    List ℕ → Option ℕ
  | [] => none
  | j :: rest =>
      if tables.getD j ∅ = ∅ ∨ j = t1 then getSecondSwapTable tables t1 rest
      else some j

/-- A graph with no self-loop on any node. -/
def Graph.SelfFree (g : Graph) : Prop := ∀ a, g a a = none

/-- Embedding of the fill loop of `_generate_initial_solution` (and of its
verbatim duplicate `_initialize_random_allocation`): for each
`table_idx in range(num_tables)` the table keeps taking the next person from
the shuffled list while it has fewer than `table_size` members and people
remain, so table `table_idx` receives the contiguous slice of `table_size`
people starting at `table_idx * table_size`, rendered here by `take`/`drop`
recursion.  The Python `set` built per table is a `Finset` via `toFinset`. -/
def fillTables (tableSize : ℕ) : ℕ → List Person → List (Finset Person)
  | 0, _ => []
  | n + 1, ps => (ps.take tableSize).toFinset :: fillTables tableSize n (ps.drop tableSize)

/-- Embedding of `_generate_initial_solution`: `random.shuffle` is modelled
by quantifying over the shuffled enumeration `shuffled` of `self.people`
(theorems assume it is duplicate-free, as `list(self.people)` is). -/
def generateInitialSolution (st : AllocatorState) (shuffled : List Person) :
    List (Finset Person) :=
  fillTables st.tableSize.toNat st.numTables.toNat shuffled

/-- The partition invariant of a seating assignment: every table holds at
most `tableSize` people and distinct tables are disjoint. -/
def ValidAssignment (tableSize : ℕ) (tables : List (Finset Person)) : Prop :=
  (∀ t ∈ tables, t.card ≤ tableSize)
    ∧ ∀ i < tables.length, ∀ j < tables.length, i ≠ j →
        Disjoint (tables.getD i ∅) (tables.getD j ∅)

/-- Total number of seated people across all tables of an assignment. -/
def totalSeated (tables : List (Finset Person)) : ℕ :=
  (tables.map Finset.card).sum

/-- Embedding of `_adjust_temperature` from `core.py`: the effective window
is `min(window_size, len(accepted_moves))`; with an empty history the
temperature is returned unchanged; otherwise the acceptance rate over the
last `effective_window` outcomes (`accepted_moves[-effective_window:]`,
i.e. dropping all but the last `effective_window` entries) decides between
cooling by `0.95`, reheating by `1.1` capped at the initial temperature, and
leaving the temperature unchanged. -/
def adjustTemperature (temperature : ℚ) (acceptedMoves : List ℕ)
    (windowSize : ℕ) (initialTemperature targetAcceptanceRate reheatThreshold : ℚ) : ℚ :=
  let effectiveWindow := min windowSize acceptedMoves.length
  if effectiveWindow = 0 then temperature
  else
    let recentAcceptanceRate : ℚ :=
      ((acceptedMoves.drop (acceptedMoves.length - effectiveWindow)).sum : ℚ)
        / (effectiveWindow : ℚ)
    if recentAcceptanceRate > targetAcceptanceRate then temperature * (95 / 100)
    else if recentAcceptanceRate < reheatThreshold then
      min (temperature * (11 / 10)) initialTemperature
    else temperature

/-- Embedding of `_adjust_temperature` from `table_allocation.py`: while
fewer than `window_size` outcomes have been recorded the temperature is
returned unchanged; afterwards the acceptance rate over the last
`window_size` outcomes decides between cooling by `0.95`, reheating by `1.5`
capped at the initial temperature, and gradual cooling by `0.99`. -/
def adjustTemperatureLegacy (temperature : ℚ) (acceptedMoves : List ℕ)
    (windowSize : ℕ) (initialTemperature targetAcceptanceRate reheatThreshold : ℚ) : ℚ :=
  if acceptedMoves.length < windowSize then temperature
  else
    let acceptanceRate : ℚ :=
      ((acceptedMoves.drop (acceptedMoves.length - windowSize)).sum : ℚ)
        / (windowSize : ℚ)
    if acceptanceRate > targetAcceptanceRate then temperature * (95 / 100)
    else if acceptanceRate < reheatThreshold then
      min (temperature * (3 / 2)) initialTemperature
    else temperature * (99 / 100)

/-- The last `k` recorded outcomes, phrased the way the spec reads ("the
last `min(windowSize, movesSoFar)` acceptance outcomes"): take `k` from the
reversed history and restore the order. -/
def lastOutcomes (acceptedMoves : List ℕ) (k : ℕ) : List ℕ :=
  (acceptedMoves.reverse.take k).reverse

/-- Re-statement of the `core.py` temperature policy in the spec's terms:
the acceptance rate is computed over the last `min(windowSize, movesSoFar)`
outcomes (so adaptation is active from the first move onward), then cool by
a factor below one when the rate exceeds the target, reheat by a factor
above one capped at the initial temperature when it is below the reheat
threshold, and otherwise leave the temperature unchanged. -/
def specAdjustCore (temperature : ℚ) (acceptedMoves : List ℕ)
    (windowSize : ℕ) (initialTemperature targetAcceptanceRate reheatThreshold : ℚ) : ℚ :=
  let k := min windowSize acceptedMoves.length
  if k = 0 then temperature
  else
    let r : ℚ := ((lastOutcomes acceptedMoves k).sum : ℚ) / (k : ℚ)
    if r > targetAcceptanceRate then temperature * (95 / 100)
    else if r < reheatThreshold then min (temperature * (11 / 10)) initialTemperature
    else temperature

/-- Re-statement of the `table_allocation.py` temperature policy: the
adjustment is INACTIVE (temperature returned unchanged) until `windowSize`
outcomes have been recorded; once the window is full the acceptance rate is
computed over the last `windowSize` outcomes and the policy cools by `0.95`,
reheats by `1.5` capped at the initial temperature, or gently cools by
`0.99` in the neutral zone. -/
def specAdjustLegacy (temperature : ℚ) (acceptedMoves : List ℕ)
    (windowSize : ℕ) (initialTemperature targetAcceptanceRate reheatThreshold : ℚ) : ℚ :=
  if acceptedMoves.length < windowSize then temperature
  else
    let r : ℚ := ((lastOutcomes acceptedMoves windowSize).sum : ℚ) / (windowSize : ℚ)
    if r > targetAcceptanceRate then temperature * (95 / 100)
    else if r < reheatThreshold then min (temperature * (3 / 2)) initialTemperature
    else temperature * (99 / 100)

/-- State of one simulated-annealing run (`solve_with_simulated_annealing`
local variables in `core.py`): current solution and score, best solution and
score, temperature, and the recorded acceptance outcomes (`core.py` appends
`1`/`0` and never pops, the window being applied inside
`_adjust_temperature`). -/
structure AnnealState where
  currentSolution : List (Finset Person)
  currentScore : ℚ
  bestSolution : List (Finset Person)
  bestScore : ℚ
  temperature : ℚ
  acceptedMoves : List ℕ

/-- One iteration's random draws, supplied as an oracle: the swap candidates
`(table1_idx, person1, table2_idx, person2)` chosen by
`_get_random_swap_candidates`, and the outcome of the acceptance draw
`random.random() < math.exp(delta / temperature)`.  Quantifying over all
oracle values covers every behaviour of the real randomized loop (when
`delta > 0` Python short-circuits and accepts regardless of the draw, which
the step function reproduces). -/
structure MoveOracle where
  t1 : ℕ
  p1 : Person
  t2 : ℕ
  p2 : Person
  accept : Bool

/-- One iteration of the `solve_with_simulated_annealing` loop of `core.py`
(after the temperature floor check): generate the neighbor by swapping the
oracle's candidates, score it, accept when `delta > 0` or the acceptance
draw succeeded, update current/best accordingly, record the outcome, and
adjust the temperature over the recorded outcomes with window size 100. -/
def annealStep (g : Graph) (initialTemperature : ℚ) (st : AnnealState)
    (o : MoveOracle) : AnnealState :=
  let neighbor := performSwap st.currentSolution o.p1 o.t1 o.p2 o.t2
  let neighborScore := calculateSatisfactionScore g neighbor
  let delta := neighborScore - st.currentScore
  if 0 < delta ∨ o.accept = true then
    { currentSolution := neighbor
      currentScore := neighborScore
      bestSolution := if st.bestScore < neighborScore then neighbor else st.bestSolution
      bestScore := if st.bestScore < neighborScore then neighborScore else st.bestScore
      temperature := adjustTemperature st.temperature (st.acceptedMoves ++ [1]) 100
        initialTemperature (3 / 10) (1 / 10)
      acceptedMoves := st.acceptedMoves ++ [1] }
  else
    { st with
      temperature := adjustTemperature st.temperature (st.acceptedMoves ++ [0]) 100
        initialTemperature (3 / 10) (1 / 10)
      acceptedMoves := st.acceptedMoves ++ [0] }

/-- The `for iteration in range(max_iterations)` loop of
`solve_with_simulated_annealing` in `core.py`: before each iteration the
loop breaks when the temperature has fallen below the floor; each list
element supplies one iteration's random draws.  The function returns the
final annealing state; the solver's return value is its `bestSolution`
field, never its `currentSolution`. -/
def annealLoop (g : Graph) (initialTemperature minTemperature : ℚ) :
    AnnealState → List MoveOracle → AnnealState
  | st, [] => st
  | st, o :: os =>
      if st.temperature < minTemperature then st
      else annealLoop g initialTemperature minTemperature
        (annealStep g initialTemperature st o) os

/-- The sequence of current solutions observed over a run: the solution held
in `current_solution` after each executed iteration (the initial solution is
the starting state's own `currentSolution`, handled separately). -/
def currentTrace (g : Graph) (initialTemperature minTemperature : ℚ) :
    AnnealState → List MoveOracle → List (List (Finset Person))
  | _, [] => []
  | st, o :: os =>
      if st.temperature < minTemperature then []
      else (annealStep g initialTemperature st o).currentSolution ::
        currentTrace g initialTemperature minTemperature
          (annealStep g initialTemperature st o) os

/-- Consistency of an annealing state: the recorded scores are the scores of
the recorded solutions and the current score never exceeds the best score.
It holds of the initial state, where best and current coincide. -/
def ScoreInv (g : Graph) (st : AnnealState) : Prop :=
  st.bestScore = calculateSatisfactionScore g st.bestSolution
    ∧ st.currentScore = calculateSatisfactionScore g st.currentSolution
    ∧ st.currentScore ≤ st.bestScore

/-- Model of Python's global pseudorandom generator: `random.seed(seed)`
resets it to a state that is a function of the seed alone, and each draw
advances the state deterministically.  The exact generator (a Mersenne
Twister in CPython) is external library code; any fixed deterministic
transition represents it faithfully for reproducibility questions, so a
linear congruential step is used. -/
def lcg (s : ℕ) : ℕ := (1103515245 * s + 12345) % 4294967296

/-- Model of `random.randrange(n)` / index draws: advances the generator and
returns a value below `n` (`0` for the empty range, where CPython would
raise — reached only in degenerate configurations, see the C3/C4 analysis). -/
def randBelow (s n : ℕ) : ℕ × ℕ := (lcg s, if n = 0 then 0 else lcg s % n)

/-- Model of `random.shuffle(people_list)`: repeatedly draw an index into
the remaining list and move that element to the front — a permutation of the
input determined entirely by the generator state (fuelled by the list
length, which the index draws preserve). -/
def shuffleGo : ℕ → ℕ → List Person → List Person × ℕ
  | 0, s, _ => ([], s)
  | n + 1, s, ps =>
      let (s', k) := randBelow s ps.length
      let r := shuffleGo n s' (ps.eraseIdx k)
      (ps.getD k 0 :: r.1, r.2)

/-- Model of `random.shuffle` on a whole list (see `shuffleGo`). -/
def shuffleRng (s : ℕ) (ps : List Person) : List Person × ℕ :=
  shuffleGo ps.length s ps

/-- The first retry loop of `_get_random_swap_candidates` in `core.py`,
driven by the modelled generator and fuelled (the source loop is unbounded;
see C3): redraw `table1_idx` while its table is empty. -/
def pickFirstTable (tables : List (Finset Person)) (numTables : ℕ) :
    ℕ → ℕ → Option ℕ × ℕ
  | 0, s => (none, s)
  | fuel + 1, s =>
      let (s', i) := randBelow s numTables
      if tables.getD i ∅ = ∅ then pickFirstTable tables numTables fuel s'
      else (some i, s')

/-- The second retry loop of `_get_random_swap_candidates` in `core.py`,
driven by the modelled generator and fuelled: redraw `table2_idx` while its
table is empty or it equals `table1_idx`. -/
def pickSecondTable (tables : List (Finset Person)) (numTables t1 : ℕ) :
    ℕ → ℕ → Option ℕ × ℕ
  | 0, s => (none, s)
  | fuel + 1, s =>
      let (s', j) := randBelow s numTables
      if tables.getD j ∅ = ∅ ∨ j = t1 then pickSecondTable tables numTables t1 fuel s'
      else (some j, s')

/-- Model of `random.choice(list(table))`: draw an index below the table's
size and return that element of the table's enumeration (sorted, standing
for Python's set iteration order). -/
def choiceFromTable (s : ℕ) (t : Finset Person) : Person × ℕ :=
  let (s', k) := randBelow s t.card
  ((t.sort (· ≤ ·)).getD k 0, s')

/-- Embedding of `_get_random_swap_candidates` from `core.py` with the
modelled generator threaded through: pick a non-empty first table, one of
its occupants, a distinct non-empty second table, and one of its
occupants. -/
def getRandomSwapCandidatesRng (tables : List (Finset Person))
    (numTables fuel : ℕ) (s : ℕ) : Option (ℕ × Person × ℕ × Person) × ℕ :=
  match pickFirstTable tables numTables fuel s with
  | (none, s1) => (none, s1)
  | (some t1, s1) =>
      let (p1, s2) := choiceFromTable s1 (tables.getD t1 ∅)
      match pickSecondTable tables numTables t1 fuel s2 with
      | (none, s3) => (none, s3)
      | (some t2, s3) =>
          let (p2, s4) := choiceFromTable s3 (tables.getD t2 ∅)
          (some (t1, p1, t2, p2), s4)

/-- One iteration of the `core.py` loop with the modelled generator: select
swap candidates, then accept outright when the delta is positive (Python's
`or` short-circuits without drawing) or draw the acceptance outcome from the
generator otherwise; the state update is `annealStep` with the resulting
oracle.  When the fuelled candidate search fails the state is returned
unchanged (the real loop would diverge there, see C3). -/
def annealStepRng (g : Graph) (numTables : ℕ) (iT : ℚ) (fuel : ℕ)
    (st : AnnealState) (s : ℕ) : AnnealState × ℕ :=
  match getRandomSwapCandidatesRng st.currentSolution numTables fuel s with
  | (none, s1) => (st, s1)
  | (some (t1, p1, t2, p2), s1) =>
      let neighborScore := calculateSatisfactionScore g
        (performSwap st.currentSolution p1 t1 p2 t2)
      if 0 < neighborScore - st.currentScore then
        (annealStep g iT st ⟨t1, p1, t2, p2, true⟩, s1)
      else
        (annealStep g iT st ⟨t1, p1, t2, p2, lcg s1 % 2 = 0⟩, lcg s1)

/-- The iteration loop of `solve_with_simulated_annealing` (`core.py`) with
the modelled generator: up to `maxIterations` iterations, breaking when the
temperature falls below the floor; returns the final state, the temperature
history (one entry per executed iteration, recorded after adjustment, as
when `return_temp_history=True`), and the final generator state. -/
def annealLoopRng (g : Graph) (numTables : ℕ) (iT mT : ℚ) (fuel : ℕ) :
    ℕ → AnnealState → ℕ → AnnealState × List ℚ × ℕ
  | 0, st, s => (st, [], s)
  | n + 1, st, s =>
      if st.temperature < mT then (st, [], s)
      else
        let (st', s') := annealStepRng g numTables iT fuel st s
        let r := annealLoopRng g numTables iT mT fuel n st' s'
        (r.1, st'.temperature :: r.2.1, r.2.2)

/-- Embedding of `solve_with_simulated_annealing` from `core.py` with
`random_seed` not `None`: seed the generator, shuffle the people, build the
initial assignment and score it, seed best = current, then run the annealing
loop; the returned allocation is the best solution ever recorded, paired
with the temperature history. -/
def solveWithSimulatedAnnealing (st : AllocatorState) (iT mT : ℚ)
    (maxIterations fuel seed : ℕ) : List (Finset Person) × List ℚ :=
  let s0 := lcg seed
  let (shuffled, s1) := shuffleRng s0 (st.people.sort (· ≤ ·))
  let tables := fillTables st.tableSize.toNat st.numTables.toNat shuffled
  let score0 := calculateSatisfactionScore st.graph tables
  let a0 : AnnealState := ⟨tables, score0, tables, score0, iT, []⟩
  let r := annealLoopRng st.graph st.numTables.toNat iT mT fuel maxIterations a0 s1
  (r.1.bestSolution, r.2.1)

lemma emptyGraph_symm : Graph.Symm emptyGraph := fun _ _ => rfl

lemma addEdge_symm {g : Graph} (hs : Graph.Symm g) (a b : Person) (w : ℚ) :
    Graph.Symm (addEdge g a b w) := by
  intro x y
  unfold addEdge
  by_cases h : (x = a ∧ y = b) ∨ (x = b ∧ y = a)
  · have h' : (y = a ∧ x = b) ∨ (y = b ∧ x = a) := by tauto
    simp [h, h']
  · have h' : ¬ ((y = a ∧ x = b) ∨ (y = b ∧ x = a)) := by tauto
    simp [h, h', hs x y]

lemma foldl_pref_step_symm (person : Person) (w : ℚ) :
    ∀ (prefs : List Person) (s : AllocatorState), Graph.Symm s.graph →
      Graph.Symm ((prefs.foldl
        (fun s pref =>
          { s with
            people := insert pref s.people
            graph := addEdge s.graph person pref w }) s).graph)
  | [], _, hs => hs
  | p :: ps, s, hs =>
      foldl_pref_step_symm person w ps
        { s with people := insert p s.people, graph := addEdge s.graph person p w }
        (addEdge_symm hs person p w)

lemma addPreference_symm {st : AllocatorState} (hs : Graph.Symm st.graph)
    (person : Person) (prefs : List Person) (w : ℚ) :
    Graph.Symm (addPreference st person prefs w).graph :=
  foldl_pref_step_symm person w prefs _ hs

lemma applyPrefs_symm {st : AllocatorState} (hs : Graph.Symm st.graph)
    (calls : List PrefCall) : Graph.Symm (applyPrefs st calls).graph := by
  unfold applyPrefs
  induction calls generalizing st with
  | nil => exact hs
  | cons c cs ih =>
      simp only [List.foldl_cons]
      exact ih (addPreference_symm hs c.1 c.2.1 c.2.2)

lemma hasEdge_symm_of {g : Graph} (hs : Graph.Symm g) (a b : Person) :
    hasEdge g a b = hasEdge g b a := by
  unfold hasEdge; rw [hs a b]

lemma edgeWeight_symm_of {g : Graph} (hs : Graph.Symm g) (a b : Person) :
    edgeWeight g a b = edgeWeight g b a := by
  unfold edgeWeight; rw [hs a b]

lemma tableDoubledScore_eq_two_mul {g : Graph} (hs : Graph.Symm g)
    (t : Finset Person) : tableDoubledScore g t = 2 * tablePairScore g t := by
  unfold tableDoubledScore tablePairScore
  have hsplit : ∀ p q : Person,
      (if p ≠ q ∧ hasEdge g p q then edgeWeight g p q else 0)
        = (if p < q ∧ hasEdge g p q then edgeWeight g p q else 0)
          + (if q < p ∧ hasEdge g p q then edgeWeight g p q else 0) := by
    intro p q
    rcases lt_trichotomy p q with h | h | h
    · simp [h, ne_of_lt h, not_lt_of_gt h]
    · subst h; simp
    · simp [h, h.ne', not_lt_of_gt h]
  have hsum :
      (∑ p ∈ t, ∑ q ∈ t, if p ≠ q ∧ hasEdge g p q then edgeWeight g p q else 0)
        = (∑ p ∈ t, ∑ q ∈ t, if p < q ∧ hasEdge g p q then edgeWeight g p q else 0)
          + ∑ p ∈ t, ∑ q ∈ t, if q < p ∧ hasEdge g p q then edgeWeight g p q else 0 := by
    rw [← Finset.sum_add_distrib]
    refine Finset.sum_congr rfl fun p _ => ?_
    rw [← Finset.sum_add_distrib]
    exact Finset.sum_congr rfl fun q _ => hsplit p q
  have hswap :
      (∑ p ∈ t, ∑ q ∈ t, if q < p ∧ hasEdge g p q then edgeWeight g p q else 0)
        = ∑ p ∈ t, ∑ q ∈ t, if p < q ∧ hasEdge g p q then edgeWeight g p q else 0 := by
    rw [Finset.sum_comm]
    refine Finset.sum_congr rfl fun p _ => Finset.sum_congr rfl fun q _ => ?_
    rw [hasEdge_symm_of hs q p, edgeWeight_symm_of hs q p]
  rw [hsum, hswap]; ring

lemma scoreLegacy_eq_of_symm {g : Graph} (hs : Graph.Symm g)
    (tables : List (Finset Person)) :
    calculateSatisfactionScoreLegacy g tables = calculateSatisfactionScore g tables := by
  unfold calculateSatisfactionScoreLegacy calculateSatisfactionScore
  have h2 : (tables.map (tableDoubledScore g)).sum
      = 2 * (tables.map (tablePairScore g)).sum := by
    induction tables with
    | nil => simp
    | cons t ts ih =>
        simp only [List.map_cons, List.sum_cons, ih,
          tableDoubledScore_eq_two_mul hs t]
        ring
  rw [h2]; ring

/-- C1: for every preference graph built by a sequence of `add_preference`
calls and every seating assignment, the `core.py` satisfaction score (which
iterates unordered pairs directly via the `person1 < person2` guard, hence
counts each co-seated preference edge exactly once) and the
`table_allocation.py` satisfaction score (which sums over ordered pairs of
distinct people and divides the doubled sum by two) return equal values. -/
theorem satisfaction_score_variants_agree
    (numTables tableSize numPeople : ℤ) (calls : List PrefCall)
    (tables : List (Finset Person)) :
    calculateSatisfactionScoreLegacy
        (applyPrefs (TableAllocator.init numTables tableSize numPeople) calls).graph tables
      = calculateSatisfactionScore
        (applyPrefs (TableAllocator.init numTables tableSize numPeople) calls).graph tables :=
  scoreLegacy_eq_of_symm (applyPrefs_symm emptyGraph_symm calls) tables

lemma addEdge_selfFree {g : Graph} (h : Graph.SelfFree g) {p q : Person}
    (hpq : p ≠ q) (w : ℚ) : Graph.SelfFree (addEdge g p q w) := by
  intro a
  unfold addEdge
  have hcond : ¬ ((a = p ∧ a = q) ∨ (a = q ∧ a = p)) := by
    rintro (⟨h1, h2⟩ | ⟨h1, h2⟩) <;> exact hpq (h2 ▸ h1 ▸ rfl)
  simp [hcond, h a]

lemma foldl_pref_step_selfFree (person : Person) (w : ℚ) :
    ∀ (prefs : List Person) (s : AllocatorState), Graph.SelfFree s.graph →
      person ∉ prefs →
      Graph.SelfFree ((prefs.foldl
        (fun s pref =>
          { s with
            people := insert pref s.people
            graph := addEdge s.graph person pref w }) s).graph)
  | [], _, h, _ => h
  | p :: ps, s, h, hmem =>
      foldl_pref_step_selfFree person w ps
        { s with people := insert p s.people, graph := addEdge s.graph person p w }
        (addEdge_selfFree h (fun hc => hmem (by rw [hc]; exact List.mem_cons_self p ps)) w)
        (fun hc => hmem (List.mem_cons_of_mem p hc))

lemma addPreference_selfFree {st : AllocatorState} (h : Graph.SelfFree st.graph)
    {person : Person} {prefs : List Person} (hmem : person ∉ prefs) (w : ℚ) :
    Graph.SelfFree (addPreference st person prefs w).graph :=
  foldl_pref_step_selfFree person w prefs _ h hmem

lemma applyPrefs_selfFree :
    ∀ (calls : List PrefCall) (st : AllocatorState), Graph.SelfFree st.graph →
      (∀ c ∈ calls, c.1 ∉ c.2.1) →
      Graph.SelfFree (applyPrefs st calls).graph
  | [], _, h, _ => h
  | c :: cs, st, h, hok =>
      applyPrefs_selfFree cs (addPreference st c.1 c.2.1 c.2.2)
        (addPreference_selfFree h (hok c (List.mem_cons_self c cs)) c.2.2)
        (fun d hd => hok d (List.mem_cons_of_mem c hd))

/-- C9 counterexample: the claim that the preference graph never contains a
self-edge is false — when a person lists themselves among their own
preferences, `add_preference` calls `add_edge(person, person)`, which creates
a self-loop in the `networkx` graph, so `hasEdge(0, 0)` is true afterwards. -/
theorem self_edge_created_by_self_preference :
    hasEdge (addPreference (TableAllocator.init 2 2 2) 0 [0] 1).graph 0 0 = true := by
  decide

/-- C9 amended: no error is ever raised by `add_preference` (it is total),
and as long as no `add_preference` call lists the calling person among their
own preferences, the preference graph never contains a self-edge; a person
who lists themselves does get a self-loop. -/
theorem no_self_edge_without_self_preference
    (numTables tableSize numPeople : ℤ) (calls : List PrefCall)
    (hok : ∀ c ∈ calls, c.1 ∉ c.2.1) (a : Person) :
    hasEdge (applyPrefs (TableAllocator.init numTables tableSize numPeople)
      calls).graph a a = false := by
  have h : Graph.SelfFree
      (applyPrefs (TableAllocator.init numTables tableSize numPeople) calls).graph :=
    applyPrefs_selfFree calls _ (fun _ => rfl) hok
  unfold hasEdge
  rw [h a]
  rfl

/-- Witness for the C9 amended theorem at a concrete input. -/
theorem no_self_edge_without_self_preference_witness :
    hasEdge (applyPrefs (TableAllocator.init 3 4 10)
      [(0, [1, 2], 1), (1, [0], 2)]).graph 1 1 = false :=
  no_self_edge_without_self_preference 3 4 10 [(0, [1, 2], 1), (1, [0], 2)]
    (by decide) 1

/-- C2: evaluation of `_try_swap` at a failing input.  With the single
preference edge `0 – 2` of weight `1`, tables `[{0, 1}, {2}]`, and the swap
of person `0` (at table 0) with person `2` (at table 1), `_try_swap` returns
`2`, while the actual satisfaction score is `0` both before and after the
swap, so the true score change is `0`: `_try_swap` double counts the mutual
edge of the two swapped people. -/
theorem trySwap_double_counts_mutual_edge :
    trySwap (applyPrefs (TableAllocator.init 2 2 3) [(0, [2], 1)]).graph
        [{0, 1}, {2}] 0 0 2 1 = 2
      ∧ calculateSatisfactionScore
          (applyPrefs (TableAllocator.init 2 2 3) [(0, [2], 1)]).graph
          (performSwap [{0, 1}, {2}] 0 0 2 1)
        - calculateSatisfactionScore
          (applyPrefs (TableAllocator.init 2 2 3) [(0, [2], 1)]).graph
          [{0, 1}, {2}] = 0 := by
  constructor <;>
    norm_num [trySwap, performSwap, updateTable, calculateSatisfactionScore,
      tablePairScore, applyPrefs, addPreference, TableAllocator.init, addEdge,
      emptyGraph, hasEdge, edgeWeight, List.getD, Finset.sum_insert,
      Finset.sum_singleton, Finset.mem_insert, Finset.mem_singleton]

/-- C3: with two tables and every seated person confined to table 0 (the
assignment `[{0, 1}, ∅]`), the swap-candidate search of both variants
rejects every possible random draw: for every finite sequence of draws the
`table_allocation.py` retry loop accepts none of them, and the second-table
retry loop of `core.py` (with the first table fixed to the only non-empty
table, index 0) accepts none of them either.  Neither loop contains any
detection of this impossibility, so the real code redraws forever instead of
returning the assignment unchanged or terminating the run. -/
theorem swap_candidate_search_rejects_all_draws :
    (∀ draws : List (ℕ × ℕ),
        getRandomSwapCandidatesLegacy ([{0, 1}, ∅] : List (Finset Person)) draws = none)
      ∧ ∀ draws : List ℕ,
        getSecondSwapTable ([{0, 1}, ∅] : List (Finset Person)) 0 draws = none := by
  constructor
  · intro draws
    induction draws with
    | nil => rfl
    | cons d rest ih =>
        obtain ⟨i, j⟩ := d
        show getRandomSwapCandidatesLegacy _ ((i, j) :: rest) = none
        unfold getRandomSwapCandidatesLegacy
        have hcond : i = j ∨ List.getD ([{0, 1}, ∅] : List (Finset Person)) i ∅ = ∅
            ∨ List.getD ([{0, 1}, ∅] : List (Finset Person)) j ∅ = ∅ := by
          by_cases hi : i = 0
          · by_cases hj : j = 0
            · exact Or.inl (hi.trans hj.symm)
            · right; right
              match j, hj with
              | 0, hj => exact absurd rfl hj
              | 1, _ => rfl
              | (n + 2), _ => rfl
          · right; left
            match i, hi with
            | 0, hi => exact absurd rfl hi
            | 1, _ => rfl
            | (n + 2), _ => rfl
        simp only [hcond, if_true]
        exact ih
  · intro draws
    induction draws with
    | nil => rfl
    | cons j rest ih =>
        show getSecondSwapTable _ 0 (j :: rest) = none
        unfold getSecondSwapTable
        have hcond : List.getD [({0, 1} : Finset Person), ∅] j ∅ = ∅ ∨ j = 0 := by
          match j with
          | 0 => exact Or.inr rfl
          | 1 => exact Or.inl rfl
          | (n + 2) => exact Or.inl rfl
        simp only [hcond, if_true]
        exact ih

/-- C4: `TableAllocator.__init__` performs no validation at all: for every
configuration, including `numTables ≤ 0` or `tableSize ≤ 0`, it returns
normally with the three scalars stored unchanged, an empty graph and an
empty people set — no `InvalidConfiguration` error exists anywhere in the
code, so nothing is raised before solving begins. -/
theorem init_never_rejects_configuration (numTables tableSize numPeople : ℤ) :
    (TableAllocator.init numTables tableSize numPeople).numTables = numTables
      ∧ (TableAllocator.init numTables tableSize numPeople).tableSize = tableSize
      ∧ (TableAllocator.init numTables tableSize numPeople).numPeople = numPeople
      ∧ (TableAllocator.init numTables tableSize numPeople).people = ∅ :=
  ⟨rfl, rfl, rfl, rfl⟩

lemma getD_set_self {l : List (Finset Person)} {i : ℕ} (h : i < l.length)
    (a : Finset Person) : (l.set i a).getD i ∅ = a := by
  rw [List.getD_eq_getElem _ _ (by simpa using h)]
  exact List.getElem_set_self _

lemma getD_set_ne {l : List (Finset Person)} {i j : ℕ} (h : i ≠ j)
    (a : Finset Person) : (l.set i a).getD j ∅ = l.getD j ∅ := by
  rw [List.getD_eq_getElem?_getD, List.getD_eq_getElem?_getD, List.getElem?_set_ne h]

lemma mem_getD_lt {tables : List (Finset Person)} {t : ℕ} {p : Person}
    (h : p ∈ tables.getD t ∅) : t < tables.length := by
  by_contra hc
  rw [List.getD_eq_getElem?_getD, List.getElem?_eq_none (le_of_not_lt hc)] at h
  simp at h

lemma length_performSwap (tables : List (Finset Person)) (p1 : Person) (t1 : ℕ)
    (p2 : Person) (t2 : ℕ) :
    (performSwap tables p1 t1 p2 t2).length = tables.length := by
  simp [performSwap, updateTable, List.length_set]

lemma performSwap_eq_sets {tables : List (Finset Person)} {t1 t2 : ℕ}
    (p1 p2 : Person) (h12 : t1 ≠ t2) (ht1 : t1 < tables.length)
    (ht2 : t2 < tables.length) :
    performSwap tables p1 t1 p2 t2 =
      (((tables.set t1 ((tables.getD t1 ∅).erase p1)).set t2
            ((tables.getD t2 ∅).erase p2)).set t1
          (insert p2 ((tables.getD t1 ∅).erase p1))).set t2
        (insert p1 ((tables.getD t2 ∅).erase p2)) := by
  simp only [performSwap, updateTable]
  rw [getD_set_ne h12, getD_set_ne (Ne.symm h12), getD_set_self ht1,
    getD_set_ne h12, getD_set_self (by rw [List.length_set]; exact ht2)]

lemma performSwap_getD {tables : List (Finset Person)} {t1 t2 : ℕ}
    (p1 p2 : Person) (h12 : t1 ≠ t2) (ht1 : t1 < tables.length)
    (ht2 : t2 < tables.length) (k : ℕ) :
    (performSwap tables p1 t1 p2 t2).getD k ∅ =
      if k = t1 then insert p2 ((tables.getD t1 ∅).erase p1)
      else if k = t2 then insert p1 ((tables.getD t2 ∅).erase p2)
      else tables.getD k ∅ := by
  rw [performSwap_eq_sets p1 p2 h12 ht1 ht2]
  by_cases hk2 : k = t2
  · subst hk2
    rw [getD_set_self (by simp only [List.length_set]; exact ht2)]
    simp [Ne.symm h12]
  · by_cases hk1 : k = t1
    · subst hk1
      rw [getD_set_ne (Ne.symm hk2),
        getD_set_self (by simp only [List.length_set]; exact ht1)]
      simp
    · rw [getD_set_ne (fun h => hk2 h.symm), getD_set_ne (fun h => hk1 h.symm),
        getD_set_ne (fun h => hk2 h.symm), getD_set_ne (fun h => hk1 h.symm)]
      simp [hk1, hk2]

lemma mem_fillTables_card_le (S : ℕ) :
    ∀ (n : ℕ) (ps : List Person) (t : Finset Person),
      t ∈ fillTables S n ps → t.card ≤ S
  | 0, _, t, h => absurd h (List.not_mem_nil t)
  | n + 1, ps, t, h => by
      rcases List.mem_cons.mp h with rfl | h'
      · exact le_trans (List.toFinset_card_le _)
          (by rw [List.length_take]; exact min_le_left _ _)
      · exact mem_fillTables_card_le S n (ps.drop S) t h'

lemma mem_fillTables_subset (S : ℕ) :
    ∀ (n : ℕ) (ps : List Person) (t : Finset Person),
      t ∈ fillTables S n ps → ∀ a ∈ t, a ∈ ps
  | 0, _, t, h => absurd h (List.not_mem_nil t)
  | n + 1, ps, t, h => by
      rcases List.mem_cons.mp h with rfl | h'
      · exact fun a ha => List.take_subset S ps (List.mem_toFinset.mp ha)
      · exact fun a ha =>
          List.drop_subset S ps (mem_fillTables_subset S n (ps.drop S) t h' a ha)

lemma fillTables_pairwise (S : ℕ) :
    ∀ (n : ℕ) (ps : List Person), ps.Nodup →
      (fillTables S n ps).Pairwise Disjoint
  | 0, _, _ => List.Pairwise.nil
  | n + 1, ps, h => by
      refine List.Pairwise.cons ?_
        (fillTables_pairwise S n (ps.drop S) (h.sublist (List.drop_sublist S ps)))
      intro u hu
      rw [Finset.disjoint_left]
      intro a ha hau
      exact (List.disjoint_take_drop h (le_refl S))
        (List.mem_toFinset.mp ha)
        (mem_fillTables_subset S n (ps.drop S) u hu a hau)

lemma validAssignment_fillTables (S n : ℕ) (ps : List Person) (h : ps.Nodup) :
    ValidAssignment S (fillTables S n ps) := by
  constructor
  · exact fun t ht => mem_fillTables_card_le S n ps t ht
  · intro i hi j hj hij
    have hpw := List.pairwise_iff_getElem.mp (fillTables_pairwise S n ps h)
    rcases Nat.lt_or_ge i j with hlt | hge
    · rw [List.getD_eq_getElem _ _ hi, List.getD_eq_getElem _ _ hj]
      exact hpw i j hi hj hlt
    · have hlt : j < i := lt_of_le_of_ne hge (Ne.symm hij)
      rw [List.getD_eq_getElem _ _ hi, List.getD_eq_getElem _ _ hj]
      exact (hpw j i hj hi hlt).symm

lemma validAssignment_performSwap {tableSize : ℕ} {tables : List (Finset Person)}
    {p1 : Person} {t1 : ℕ} {p2 : Person} {t2 : ℕ}
    (hV : ValidAssignment tableSize tables) (h12 : t1 ≠ t2)
    (hp1 : p1 ∈ tables.getD t1 ∅) (hp2 : p2 ∈ tables.getD t2 ∅) :
    ValidAssignment tableSize (performSwap tables p1 t1 p2 t2) := by
  obtain ⟨hcard, hdisj⟩ := hV
  have ht1 : t1 < tables.length := mem_getD_lt hp1
  have ht2 : t2 < tables.length := mem_getD_lt hp2
  have hAB : Disjoint (tables.getD t1 ∅) (tables.getD t2 ∅) := hdisj t1 ht1 t2 ht2 h12
  have hp1B : p1 ∉ tables.getD t2 ∅ := Finset.disjoint_left.mp hAB hp1
  have hp2A : p2 ∉ tables.getD t1 ∅ := Finset.disjoint_right.mp hAB hp2
  have hAmem : tables.getD t1 ∅ ∈ tables := by
    rw [List.getD_eq_getElem _ _ ht1]; exact List.getElem_mem _
  have hBmem : tables.getD t2 ∅ ∈ tables := by
    rw [List.getD_eq_getElem _ _ ht2]; exact List.getElem_mem _
  have hcA : 0 < (tables.getD t1 ∅).card := Finset.card_pos.mpr ⟨p1, hp1⟩
  have hcB : 0 < (tables.getD t2 ∅).card := Finset.card_pos.mpr ⟨p2, hp2⟩
  -- membership descriptions of the two rebuilt tables
  have hmem1 : ∀ a, a ∈ insert p2 ((tables.getD t1 ∅).erase p1) →
      a = p2 ∨ a ∈ tables.getD t1 ∅ := by
    intro a ha
    rcases Finset.mem_insert.mp ha with h | h
    · exact Or.inl h
    · exact Or.inr (Finset.mem_of_mem_erase h)
  have hmem2 : ∀ a, a ∈ insert p1 ((tables.getD t2 ∅).erase p2) →
      a = p1 ∨ a ∈ tables.getD t2 ∅ := by
    intro a ha
    rcases Finset.mem_insert.mp ha with h | h
    · exact Or.inl h
    · exact Or.inr (Finset.mem_of_mem_erase h)
  have hp12 : p1 ≠ p2 := fun h => hp1B (h ▸ hp2)
  -- pairwise disjointness facts about the rebuilt tables
  have hX12 : Disjoint (insert p2 ((tables.getD t1 ∅).erase p1))
      (insert p1 ((tables.getD t2 ∅).erase p2)) := by
    rw [Finset.disjoint_left]
    intro a ha hb
    rcases hmem1 a ha with rfl | haA
    · rcases Finset.mem_insert.mp hb with h | h
      · exact hp12 h.symm
      · exact (Finset.not_mem_erase _ _) h
    · rcases hmem2 a hb with rfl | haB
      · rcases Finset.mem_insert.mp ha with h | h
        · exact hp12 h
        · exact (Finset.not_mem_erase _ _) h
      · exact Finset.disjoint_left.mp hAB haA haB
  have hX1C : ∀ k, k < tables.length → k ≠ t1 → k ≠ t2 →
      Disjoint (insert p2 ((tables.getD t1 ∅).erase p1)) (tables.getD k ∅) := by
    intro k hk hk1 hk2
    rw [Finset.disjoint_left]
    intro a ha hb
    rcases hmem1 a ha with rfl | haA
    · exact Finset.disjoint_left.mp (hdisj t2 ht2 k hk (fun h => hk2 h.symm)) hp2 hb
    · exact Finset.disjoint_left.mp (hdisj t1 ht1 k hk (fun h => hk1 h.symm)) haA hb
  have hX2C : ∀ k, k < tables.length → k ≠ t1 → k ≠ t2 →
      Disjoint (insert p1 ((tables.getD t2 ∅).erase p2)) (tables.getD k ∅) := by
    intro k hk hk1 hk2
    rw [Finset.disjoint_left]
    intro a ha hb
    rcases hmem2 a ha with rfl | haB
    · exact Finset.disjoint_left.mp (hdisj t1 ht1 k hk (fun h => hk1 h.symm)) hp1 hb
    · exact Finset.disjoint_left.mp (hdisj t2 ht2 k hk (fun h => hk2 h.symm)) haB hb
  constructor
  · intro t ht
    obtain ⟨k, hk, rfl⟩ := List.mem_iff_getElem.mp ht
    have hk' : k < tables.length := by
      rw [length_performSwap] at hk; exact hk
    rw [← List.getD_eq_getElem _ ∅ hk, performSwap_getD p1 p2 h12 ht1 ht2 k]
    split_ifs with hk1 hk2
    · calc (insert p2 ((tables.getD t1 ∅).erase p1)).card
          ≤ ((tables.getD t1 ∅).erase p1).card + 1 := Finset.card_insert_le _ _
        _ ≤ (tables.getD t1 ∅).card := by
            rw [Finset.card_erase_of_mem hp1]; omega
        _ ≤ tableSize := hcard _ hAmem
    · calc (insert p1 ((tables.getD t2 ∅).erase p2)).card
          ≤ ((tables.getD t2 ∅).erase p2).card + 1 := Finset.card_insert_le _ _
        _ ≤ (tables.getD t2 ∅).card := by
            rw [Finset.card_erase_of_mem hp2]; omega
        _ ≤ tableSize := hcard _ hBmem
    · exact hcard _ (by rw [List.getD_eq_getElem _ _ hk']; exact List.getElem_mem _)
  · intro i hi j hj hij
    rw [length_performSwap] at hi hj
    rw [performSwap_getD p1 p2 h12 ht1 ht2 i, performSwap_getD p1 p2 h12 ht1 ht2 j]
    by_cases hi1 : i = t1
    · by_cases hj1 : j = t1
      · exact absurd (hi1.trans hj1.symm) hij
      · by_cases hj2 : j = t2
        · rw [if_pos hi1, if_neg hj1, if_pos hj2]; exact hX12
        · rw [if_pos hi1, if_neg hj1, if_neg hj2]; exact hX1C j hj hj1 hj2
    · by_cases hi2 : i = t2
      · by_cases hj1 : j = t1
        · rw [if_neg hi1, if_pos hi2, if_pos hj1]; exact hX12.symm
        · by_cases hj2 : j = t2
          · exact absurd (hi2.trans hj2.symm) hij
          · rw [if_neg hi1, if_pos hi2, if_neg hj1, if_neg hj2]
            exact hX2C j hj hj1 hj2
      · by_cases hj1 : j = t1
        · rw [if_neg hi1, if_neg hi2, if_pos hj1]; exact (hX1C i hi hi1 hi2).symm
        · by_cases hj2 : j = t2
          · rw [if_neg hi1, if_neg hi2, if_neg hj1, if_pos hj2]
            exact (hX2C i hi hi1 hi2).symm
          · rw [if_neg hi1, if_neg hi2, if_neg hj1, if_neg hj2]
            exact hdisj i hi j hj hij

/-- C5: the partition invariant.  First conjunct: for every allocator state
and every duplicate-free shuffled enumeration of the people, the initial
assignment produced by `_generate_initial_solution` has pairwise-disjoint
tables each of size at most `table_size`.  Second conjunct: the invariant is
preserved by every neighbor (swap) move, i.e. by `_generate_neighbor`'s swap
of a person `p1` of table `t1` with a person `p2` of a different table `t2`. -/
theorem partition_invariant :
    (∀ (st : AllocatorState) (shuffled : List Person), shuffled.Nodup →
        ValidAssignment st.tableSize.toNat (generateInitialSolution st shuffled))
      ∧ ∀ (tableSize : ℕ) (tables : List (Finset Person))
          (p1 : Person) (t1 : ℕ) (p2 : Person) (t2 : ℕ),
          ValidAssignment tableSize tables → t1 ≠ t2 →
          p1 ∈ tables.getD t1 ∅ → p2 ∈ tables.getD t2 ∅ →
          ValidAssignment tableSize (performSwap tables p1 t1 p2 t2) :=
  ⟨fun _ shuffled h => validAssignment_fillTables _ _ shuffled h,
   fun _ _ _ _ _ _ hV h12 hp1 hp2 => validAssignment_performSwap hV h12 hp1 hp2⟩

/-- Witness for the partition invariant at concrete inputs. -/
theorem partition_invariant_witness :
    ValidAssignment ((TableAllocator.init 2 2 4).tableSize.toNat)
        (generateInitialSolution (TableAllocator.init 2 2 4) [0, 1, 2, 3])
      ∧ ValidAssignment 2 (performSwap [{0, 1}, {2, 3}] 0 0 2 1) :=
  ⟨partition_invariant.1 (TableAllocator.init 2 2 4) [0, 1, 2, 3] (by decide),
   partition_invariant.2 2 [{0, 1}, {2, 3}] 0 0 2 1
     ⟨by decide, by decide⟩ (by decide) (by decide) (by decide)⟩

lemma totalSeated_fillTables (S : ℕ) :
    ∀ (n : ℕ) (ps : List Person), ps.Nodup →
      totalSeated (fillTables S n ps) = min ps.length (n * S)
  | 0, ps, _ => by simp [fillTables, totalSeated]
  | n + 1, ps, h => by
      have ih := totalSeated_fillTables S n (ps.drop S)
        (h.sublist (List.drop_sublist S ps))
      have hc : (ps.take S).toFinset.card = min S ps.length := by
        rw [List.toFinset_card_of_nodup (h.sublist (List.take_sublist S ps)),
          List.length_take]
      simp only [fillTables, totalSeated, List.map_cons, List.sum_cons]
      unfold totalSeated at ih
      rw [hc, ih, List.length_drop]
      have hmul : (n + 1) * S = S + n * S := by ring
      rw [hmul]
      omega

lemma totalSeated_set (tables : List (Finset Person)) :
    ∀ (i : ℕ), i < tables.length → ∀ (a : Finset Person),
      totalSeated (tables.set i a) + (tables.getD i ∅).card
        = totalSeated tables + a.card := by
  induction tables with
  | nil => intro i hi; simp at hi
  | cons t ts ih =>
      intro i hi a
      cases i with
      | zero => simp [totalSeated]; omega
      | succ i' =>
          have hi' : i' < ts.length := Nat.lt_of_succ_lt_succ hi
          have h := ih i' hi' a
          simp only [totalSeated, List.set, List.map_cons, List.sum_cons,
            List.getD_cons_succ] at h ⊢
          omega

lemma totalSeated_performSwap {tableSize : ℕ} {tables : List (Finset Person)}
    {p1 : Person} {t1 : ℕ} {p2 : Person} {t2 : ℕ}
    (hV : ValidAssignment tableSize tables) (h12 : t1 ≠ t2)
    (hp1 : p1 ∈ tables.getD t1 ∅) (hp2 : p2 ∈ tables.getD t2 ∅) :
    totalSeated (performSwap tables p1 t1 p2 t2) = totalSeated tables := by
  obtain ⟨hcard, hdisj⟩ := hV
  have ht1 : t1 < tables.length := mem_getD_lt hp1
  have ht2 : t2 < tables.length := mem_getD_lt hp2
  have hAB : Disjoint (tables.getD t1 ∅) (tables.getD t2 ∅) := hdisj t1 ht1 t2 ht2 h12
  have hp1B : p1 ∉ tables.getD t2 ∅ := Finset.disjoint_left.mp hAB hp1
  have hp2A : p2 ∉ tables.getD t1 ∅ := Finset.disjoint_right.mp hAB hp2
  have hcA : 0 < (tables.getD t1 ∅).card := Finset.card_pos.mpr ⟨p1, hp1⟩
  have hcB : 0 < (tables.getD t2 ∅).card := Finset.card_pos.mpr ⟨p2, hp2⟩
  have cE1 : ((tables.getD t1 ∅).erase p1).card = (tables.getD t1 ∅).card - 1 :=
    Finset.card_erase_of_mem hp1
  have cE2 : ((tables.getD t2 ∅).erase p2).card = (tables.getD t2 ∅).card - 1 :=
    Finset.card_erase_of_mem hp2
  have cI1 : (insert p2 ((tables.getD t1 ∅).erase p1)).card
      = ((tables.getD t1 ∅).erase p1).card + 1 :=
    Finset.card_insert_of_not_mem (fun hc => hp2A (Finset.mem_of_mem_erase hc))
  have cI2 : (insert p1 ((tables.getD t2 ∅).erase p2)).card
      = ((tables.getD t2 ∅).erase p2).card + 1 :=
    Finset.card_insert_of_not_mem (fun hc => hp1B (Finset.mem_of_mem_erase hc))
  have g1 : (tables.set t1 ((tables.getD t1 ∅).erase p1)).getD t2 ∅
      = tables.getD t2 ∅ := getD_set_ne h12 _
  have g2 : ((tables.set t1 ((tables.getD t1 ∅).erase p1)).set t2
        ((tables.getD t2 ∅).erase p2)).getD t1 ∅
      = (tables.getD t1 ∅).erase p1 := by
    rw [getD_set_ne (Ne.symm h12), getD_set_self ht1]
  have g3 : (((tables.set t1 ((tables.getD t1 ∅).erase p1)).set t2
          ((tables.getD t2 ∅).erase p2)).set t1
        (insert p2 ((tables.getD t1 ∅).erase p1))).getD t2 ∅
      = (tables.getD t2 ∅).erase p2 := by
    rw [getD_set_ne h12, getD_set_self (by rw [List.length_set]; exact ht2)]
  have E1 := totalSeated_set tables t1 ht1 ((tables.getD t1 ∅).erase p1)
  have E2 := totalSeated_set (tables.set t1 ((tables.getD t1 ∅).erase p1)) t2
    (by rw [List.length_set]; exact ht2) ((tables.getD t2 ∅).erase p2)
  have E3 := totalSeated_set ((tables.set t1 ((tables.getD t1 ∅).erase p1)).set t2
    ((tables.getD t2 ∅).erase p2)) t1
    (by rw [List.length_set, List.length_set]; exact ht1)
    (insert p2 ((tables.getD t1 ∅).erase p1))
  have E4 := totalSeated_set (((tables.set t1 ((tables.getD t1 ∅).erase p1)).set t2
    ((tables.getD t2 ∅).erase p2)).set t1 (insert p2 ((tables.getD t1 ∅).erase p1))) t2
    (by rw [List.length_set, List.length_set, List.length_set]; exact ht2)
    (insert p1 ((tables.getD t2 ∅).erase p2))
  rw [g1] at E2
  rw [g2] at E3
  rw [g3] at E4
  rw [performSwap_eq_sets p1 p2 h12 ht1 ht2]
  omega

/-- C6: conservation.  First conjunct: for every allocator state and every
duplicate-free shuffled enumeration of the people added so far, the total
number of people seated by `_generate_initial_solution` (equivalently, by the
verbatim duplicate `_initialize_random_allocation`) equals
`min(numPeopleAdded, numTables * tableSize)` — people beyond total capacity
are simply not seated anywhere.  Second conjunct: every later neighbor
(swap) move preserves the total number of seated people. -/
theorem conservation :
    (∀ (st : AllocatorState) (shuffled : List Person), shuffled.Nodup →
        shuffled.toFinset = st.people →
        totalSeated (generateInitialSolution st shuffled)
          = min st.people.card (st.numTables.toNat * st.tableSize.toNat))
      ∧ ∀ (tableSize : ℕ) (tables : List (Finset Person))
          (p1 : Person) (t1 : ℕ) (p2 : Person) (t2 : ℕ),
          ValidAssignment tableSize tables → t1 ≠ t2 →
          p1 ∈ tables.getD t1 ∅ → p2 ∈ tables.getD t2 ∅ →
          totalSeated (performSwap tables p1 t1 p2 t2) = totalSeated tables := by
  constructor
  · intro st shuffled hnd hset
    have hlen : shuffled.length = st.people.card := by
      rw [← hset, List.toFinset_card_of_nodup hnd]
    unfold generateInitialSolution
    rw [totalSeated_fillTables _ _ _ hnd, hlen]
  · intro _ _ _ _ _ _ hV h12 hp1 hp2
    exact totalSeated_performSwap hV h12 hp1 hp2

/-- Witness for the conservation theorem at concrete inputs. -/
theorem conservation_witness :
    totalSeated (generateInitialSolution
        ⟨2, 2, 5, emptyGraph, {0, 1, 2, 3, 4}⟩ [0, 1, 2, 3, 4])
      = min (Finset.card {0, 1, 2, 3, 4}) 4
      ∧ totalSeated (performSwap [{0, 1}, {2, 3}] 0 0 2 1)
        = totalSeated [{0, 1}, {2, 3}] :=
  ⟨conservation.1 ⟨2, 2, 5, emptyGraph, {0, 1, 2, 3, 4}⟩ [0, 1, 2, 3, 4]
      (by decide) (by decide),
   conservation.2 2 [{0, 1}, {2, 3}] 0 0 2 1 ⟨by decide, by decide⟩
      (by decide) (by decide) (by decide)⟩

lemma bestScore_le_annealStep (g : Graph) (iT : ℚ) (st : AnnealState)
    (o : MoveOracle) : st.bestScore ≤ (annealStep g iT st o).bestScore := by
  simp only [annealStep]
  split_ifs with h1 h2
  · exact le_of_lt h2
  · exact le_refl st.bestScore
  · exact le_refl st.bestScore

lemma scoreInv_annealStep {g : Graph} {st : AnnealState} (iT : ℚ)
    (o : MoveOracle) (hInv : ScoreInv g st) :
    ScoreInv g (annealStep g iT st o) := by
  obtain ⟨hb, hc, hcb⟩ := hInv
  unfold ScoreInv
  simp only [annealStep]
  split_ifs with h1 h2
  · exact ⟨rfl, rfl, le_refl _⟩
  · exact ⟨hb, rfl, le_of_not_lt h2⟩
  · exact ⟨hb, hc, hcb⟩

lemma annealStep_best_cases (g : Graph) (iT : ℚ) (st : AnnealState)
    (o : MoveOracle) :
    (annealStep g iT st o).bestSolution = st.bestSolution
      ∨ (annealStep g iT st o).bestSolution = (annealStep g iT st o).currentSolution := by
  simp only [annealStep]
  split_ifs with h1 h2
  · exact Or.inr rfl
  · exact Or.inl rfl
  · exact Or.inl rfl

/-- C7: over every simulated-annealing run of `core.py` (every starting
state whose recorded scores are consistent and every sequence of random
draws), the recorded best score never decreases from iteration to iteration
(first conjunct, applied at any intermediate state); the final state's best
score is the score of its best solution; the best score dominates the score
of every current solution observed during the run; and the final best
solution — the value the solver returns, never the final current solution —
is the starting best or one of the observed current solutions. -/
theorem best_score_monotone_and_best_returned
    (g : Graph) (iT mT : ℚ) (st : AnnealState) (os : List MoveOracle)
    (hInv : ScoreInv g st) :
    st.bestScore ≤ (annealLoop g iT mT st os).bestScore
      ∧ ScoreInv g (annealLoop g iT mT st os)
      ∧ (∀ a ∈ currentTrace g iT mT st os,
          calculateSatisfactionScore g a ≤ (annealLoop g iT mT st os).bestScore)
      ∧ ((annealLoop g iT mT st os).bestSolution = st.bestSolution
          ∨ (annealLoop g iT mT st os).bestSolution ∈ currentTrace g iT mT st os) := by
  induction os generalizing st with
  | nil =>
      refine ⟨le_refl _, hInv, ?_, Or.inl rfl⟩
      intro a ha
      simp [currentTrace] at ha
  | cons o os ih =>
      by_cases hT : st.temperature < mT
      · unfold annealLoop currentTrace
        rw [if_pos hT, if_pos hT]
        refine ⟨le_refl _, hInv, ?_, Or.inl rfl⟩
        intro a ha
        simp at ha
      · have hInv' := scoreInv_annealStep iT o hInv
        obtain ⟨ih1, ih2, ih3, ih4⟩ := ih (annealStep g iT st o) hInv'
        unfold annealLoop currentTrace
        rw [if_neg hT, if_neg hT]
        refine ⟨le_trans (bestScore_le_annealStep g iT st o) ih1, ih2, ?_, ?_⟩
        · intro a ha
          rcases List.mem_cons.mp ha with rfl | ha'
          · calc calculateSatisfactionScore g (annealStep g iT st o).currentSolution
                = (annealStep g iT st o).currentScore := (hInv'.2.1).symm
              _ ≤ (annealStep g iT st o).bestScore := hInv'.2.2
              _ ≤ _ := ih1
          · exact ih3 a ha'
        · rcases ih4 with h | h
          · rcases annealStep_best_cases g iT st o with h2 | h2
            · exact Or.inl (h.trans h2)
            · exact Or.inr (by rw [h, h2]; exact List.mem_cons_self _ _)
          · exact Or.inr (List.mem_cons_of_mem _ h)

/-- Witness for the best-score theorem at a concrete input: a two-table
assignment under the empty preference graph, one iteration. -/
theorem best_score_monotone_and_best_returned_witness :
    (0 : ℚ) ≤ (annealLoop emptyGraph 100 (1 / 100)
        ⟨[{0, 1}, {2}], 0, [{0, 1}, {2}], 0, 100, []⟩
        [⟨0, 0, 1, 2, true⟩]).bestScore :=
  (best_score_monotone_and_best_returned emptyGraph 100 (1 / 100)
    ⟨[{0, 1}, {2}], 0, [{0, 1}, {2}], 0, 100, []⟩ [⟨0, 0, 1, 2, true⟩]
    (by refine ⟨?_, ?_, le_refl 0⟩ <;>
      simp [calculateSatisfactionScore, tablePairScore, hasEdge, emptyGraph])).1

lemma lastOutcomes_eq_drop (l : List ℕ) (k : ℕ) :
    lastOutcomes l k = l.drop (l.length - k) := by
  unfold lastOutcomes
  rw [List.reverse_take]
  simp

/-- C8 counterexample: the claim fails on the `table_allocation.py` variant.
After a single recorded outcome `[1]` the acceptance rate over the last
`min(windowSize, movesSoFar) = 1` outcomes is `1 > 0.3`, so the claim
requires the temperature to be multiplied by a cooling factor below one; the
code instead returns the temperature `100` unchanged, because this variant
is inactive until `windowSize` outcomes have been recorded. -/
theorem adjust_temperature_claim_counterexample :
    adjustTemperatureLegacy 100 [1] 100 100 (3 / 10) (1 / 10) = 100
      ∧ ((lastOutcomes [1] (min 100 ([1] : List ℕ).length)).sum : ℚ)
          / ((min 100 ([1] : List ℕ).length : ℕ) : ℚ) > 3 / 10 := by
  constructor
  · norm_num [adjustTemperatureLegacy]
  · norm_num [lastOutcomes]

/-- C8 amended: the two variants implement two different adaptive policies.
`core.py`'s `_adjust_temperature` behaves exactly as the claim says: the
acceptance rate is computed over the last `min(windowSize, movesSoFar)`
outcomes (active from the first move onward), cooling by `0.95` when the
rate exceeds the target, reheating by `1.1` capped at the initial
temperature below the reheat threshold, and otherwise leaving the
temperature unchanged.  `table_allocation.py`'s variant instead leaves the
temperature unchanged until `windowSize` outcomes have been recorded, and
only then computes the rate over the last `windowSize` outcomes, cooling by
`0.95`, reheating by `1.5` capped at the initial temperature, or gently
cooling by `0.99` in the neutral zone. -/
theorem adjust_temperature_characterized (t : ℚ) (mv : List ℕ) (ws : ℕ)
    (iT tr rh : ℚ) :
    adjustTemperature t mv ws iT tr rh = specAdjustCore t mv ws iT tr rh
      ∧ adjustTemperatureLegacy t mv ws iT tr rh = specAdjustLegacy t mv ws iT tr rh := by
  constructor
  · unfold adjustTemperature specAdjustCore
    simp only [lastOutcomes_eq_drop]
  · unfold adjustTemperatureLegacy specAdjustLegacy
    simp only [lastOutcomes_eq_drop]

/-- C10: determinism under seed.  The run is a deterministic function of the
configuration, the preferences (both inside the allocator state) and the
seed: two solves with identical allocator states and equal non-None seeds
return identical allocations and identical temperature traces.  In the
embedding every random draw is derived from the generator state that
`random.seed(seed)` determines, which is what `solve_with_simulated_annealing`
relies on in the source. -/
theorem determinism_under_seed (st : AllocatorState) (iT mT : ℚ)
    (maxIterations fuel seed1 seed2 : ℕ) (h : seed1 = seed2) :
    (solveWithSimulatedAnnealing st iT mT maxIterations fuel seed1).1
        = (solveWithSimulatedAnnealing st iT mT maxIterations fuel seed2).1
      ∧ (solveWithSimulatedAnnealing st iT mT maxIterations fuel seed1).2
        = (solveWithSimulatedAnnealing st iT mT maxIterations fuel seed2).2 := by
  subst h
  exact ⟨rfl, rfl⟩

/-- Witness for determinism under seed at a concrete input. -/
theorem determinism_under_seed_witness :
    (solveWithSimulatedAnnealing (applyPrefs (TableAllocator.init 2 2 3)
          [(0, [1], 1)]) 100 (1 / 100) 3 5 42).1
        = (solveWithSimulatedAnnealing (applyPrefs (TableAllocator.init 2 2 3)
          [(0, [1], 1)]) 100 (1 / 100) 3 5 42).1
      ∧ (solveWithSimulatedAnnealing (applyPrefs (TableAllocator.init 2 2 3)
          [(0, [1], 1)]) 100 (1 / 100) 3 5 42).2
        = (solveWithSimulatedAnnealing (applyPrefs (TableAllocator.init 2 2 3)
          [(0, [1], 1)]) 100 (1 / 100) 3 5 42).2 :=
  determinism_under_seed (applyPrefs (TableAllocator.init 2 2 3) [(0, [1], 1)])
    100 (1 / 100) 3 5 42 42 rfl

end TableAlloc
